import Mathlib

/-!
Verification of the iotop-w engine (sampling, differencing, ranking, adaptive
scaling, ring-buffer history, eviction, interval stepping, flag parsing).

The definitions below are a shallow embedding of the Go source of iotop-w
version 1.03 (the current source file of the repository).  Machine integers
(uint64 counters, int) are modelled as natural numbers with wraparound made
explicit (modulo 2 ^ 64), float64 quantities as exact rationals, and
durations/timestamps as rational numbers of seconds.  Go maps keyed by PID
are modelled as association lists; the iteration order of a Go map is not
specified, so list order stands for one realizable iteration order.
-/

set_option autoImplicit false

namespace Iotop

/-- Solarized palette escape string, Go global Base03. -/
def Base03 : String := "\x1b[38;5;234m"

/-- Solarized palette escape string, Go global Base0. -/
def Base0 : String := "\x1b[38;5;250m"

/-- Solarized palette escape string, Go global Green. -/
def Green : String := "\x1b[38;5;64m"

/-- Solarized palette escape string, Go global Yellow. -/
def Yellow : String := "\x1b[38;5;136m"

/-- Solarized palette escape string, Go global Orange. -/
def Orange : String := "\x1b[38;5;166m"

/-- Solarized palette escape string, Go global Red. -/
def Red : String := "\x1b[38;5;160m"

/-- Number of glyphs in the Go braille sparkline table (len(braille) = 9);
the blocks table has the same length (len(blocks) = 9). -/
def glyphCount : ℕ := 9

/-- Embeds the Go struct Cell: a quantized sparkline cell.  The float64
Level is modelled as an exact rational. -/
structure Cell where
  Level : ℚ
  Color : String
deriving DecidableEq

/-- The zero value of Cell, as produced by make([]Cell, n) in Go. -/
def cellZero : Cell := ⟨0, ""⟩

/-- Embeds the Go struct Ring: a fixed-capacity circular buffer of cells
with a head index. -/
structure Ring where
  buf : List Cell
  head : ℕ
deriving DecidableEq

/-- Embeds Go newRing: a ring whose buffer is n zero cells, head 0. -/
def newRing (n : ℕ) : Ring := ⟨List.replicate n cellZero, 0⟩

/-- Embeds Go Ring.push (part_001 lines 76-79): write the cell at the head
slot and advance the head modulo the capacity. -/
def Ring.push (r : Ring) (c : Cell) : Ring :=
  ⟨r.buf.set r.head c, (r.head + 1) % r.buf.length⟩

/-- Push a whole list of cells in order (repeated Ring.push). -/
def Ring.pushAll (r : Ring) (cs : List Cell) : Ring := cs.foldl Ring.push r

/-- The sequence of cells that Go Ring.renderBraille / renderBlocks
(part_001 lines 81-116) reads, in reading order: cell i of the output is
buf[(head+i) % len(buf)].  The rendering functions are pure (value
receiver, no writes), so this list fully determines their output. -/
def Ring.renderCells (r : Ring) : List Cell :=
  (List.range r.buf.length).map fun i => r.buf.getD ((r.head + i) % r.buf.length) cellZero

/-- Truncation of a rational toward zero: the effect of the Go conversion
int(f) on a float64 value. -/
def truncToZero (q : ℚ) : ℤ := if 0 ≤ q then ⌊q⌋ else ⌈q⌉

/-- Embeds the glyph index computation in Go Ring.renderBraille (part_001
lines 85-91): idx := int(Level + 0.5), clamped below to 0 and above to
len(braille)-1 = 8. -/
def glyphIdx (lvl : ℚ) : ℤ :=
  let idx := truncToZero (lvl + 1 / 2)
  if idx < 0 then 0 else if 9 ≤ idx then 8 else idx

/-- Embeds Go scale (part_001 lines 128-133): 0 when max ≤ 0, otherwise
v * (len(braille)-1) / max. -/
def scale (v m : ℚ) : ℚ := if m ≤ 0 then 0 else v * 8 / m

/-- Embeds Go scaleBlocks (part_001 lines 135-140); len(blocks)-1 = 8 as
well, so the formula coincides with scale. -/
def scaleBlocks (v m : ℚ) : ℚ := if m ≤ 0 then 0 else v * 8 / m

/-- Embeds Go colorRatio (part_001 lines 142-155): intensity class from
the value/max quotient via fixed thresholds. -/
def colorBand (q : ℚ) : String :=
  if 1 < q then Red
  else if 3 / 4 < q then Orange
  else if 1 / 2 < q then Yellow
  else if 1 / 4 < q then Green
  else Base0

/-- Embeds the Go struct ProcIO: one process's snapshot entry with
cumulative uint64 read/write byte counters (modelled as naturals, in
range [0, 2^64)). -/
structure ProcIOInfo where
  PID : ℕ
  Name : String
  Read : ℕ
  Write : ℕ
deriving DecidableEq

/-- Embeds the Go struct Rates: per-process rates in bytes/sec for one
cycle (float64 values modelled as exact rationals). -/
structure Rates where
  PID : ℕ
  Name : String
  Read : ℚ
  Write : ℚ
  Total : ℚ
deriving DecidableEq

/-- Go uint64 subtraction a - b: wraps modulo 2 ^ 64.  For a, b < 2 ^ 64
this equals a - b when b ≤ a and 2 ^ 64 - (b - a) otherwise. -/
def usub64 (a b : ℕ) : ℕ := (a + 2 ^ 64 - b) % 2 ^ 64

/-- Embeds the per-process body of the rates loop in Go main (part_001
lines 571-587): uint64 deltas converted to float64, skipped when their sum
is zero, otherwise divided by the elapsed seconds.  The float64
conversions of the deltas are modelled exactly (rounding to 53-bit
mantissa is ignored; it affects neither zero-ness nor sign). -/
def pairRate (old now : ProcIOInfo) (elapsed : ℚ) : Option Rates :=
  let rDelta : ℚ := (usub64 now.Read old.Read : ℕ)
  let wDelta : ℚ := (usub64 now.Write old.Write : ℕ)
  if rDelta + wDelta = 0 then none
  else
    let rRate := rDelta / elapsed
    let wRate := wDelta / elapsed
    some ⟨now.PID, now.Name, rRate, wRate, rRate + wRate⟩

/-- Embeds the rates loop of Go main (part_001 lines 565-588): for every
entry of the current snapshot that also appears in the previous snapshot,
emit the pairRate result (if any).  Snapshots are association lists of
processes; entries of curr with no baseline in prev are skipped. -/
def computeRates (prev curr : List ProcIOInfo) (elapsed : ℚ) : List Rates :=
  curr.filterMap fun now =>
    match prev.find? (fun old => old.PID == now.PID) with
    | none => none
    | some old => pairRate old now elapsed

/-- The comparison used by the Go sort (part_001 line 590):
rates[i].Total > rates[j].Total, as the weak relation fed to a sorting
routine (a precedes b when b.Total ≤ a.Total). -/
def rateLE (a b : Rates) : Prop := b.Total ≤ a.Total

instance : DecidableRel rateLE := fun a b => inferInstanceAs (Decidable (b.Total ≤ a.Total))

instance : IsTotal Rates rateLE := ⟨fun a b => le_total b.Total a.Total⟩

instance : IsTrans Rates rateLE := ⟨fun _ _ _ hab hbc => le_trans hbc hab⟩

/-- Embeds sort.Slice(rates, func(i, j) { return rates[i].Total >
rates[j].Total }) (part_001 line 590).  For slices shorter than 12
elements Go's sort.Slice performs insertion sort with this strict
comparison, which moves an element left only past strictly smaller
totals; List.insertionSort with rateLE computes exactly that stable
descending order. -/
def sortRates (l : List Rates) : List Rates := l.insertionSort rateLE

/-- Go constant historyWidth = 30: the ring capacity. -/
def historyWidth : ℕ := 30

/-- Embeds the Go struct ProcHist: per-process trend state.  Max is the
float64 adaptive maximum (exact rational here); LastSeen is a timestamp
in seconds. -/
structure ProcHist where
  Read : Ring
  Write : Ring
  Max : ℚ
  LastSeen : ℚ
deriving DecidableEq

/-- Embeds the adaptive-max update of Go main (part_001 lines 611-615):
instant rise to the total when it exceeds the current max, otherwise
multiplicative decay by 0.95 = 19/20. -/
def updateMax (m total : ℚ) : ℚ := if m < total then total else m * (19 / 20)

/-- Lookup in the procs association list (Go map access procs[pid]). -/
def lookupHist (ps : List (ℕ × ProcHist)) (pid : ℕ) : Option ProcHist :=
  (ps.find? fun p => p.1 == pid).map fun p => p.2

/-- Store into the procs association list (Go map store procs[pid] = h):
replace the entry for the key when present, otherwise add one. -/
def updateAssoc (ps : List (ℕ × ProcHist)) (pid : ℕ) (h : ProcHist) : List (ℕ × ProcHist) :=
  if ps.any fun p => p.1 == pid then
    ps.map fun p => if p.1 == pid then (pid, h) else p
  else ps ++ [(pid, h)]

/-- Embeds the per-ranked-rate body of the display loop in Go main
(part_001 lines 598-628): create the history entry if missing (rings of
capacity 30, Max 1.0), set LastSeen to now, update the adaptive max, and
push the scaled read/write cells.  scaleBlocks coincides with scale (both
tables have 9 glyphs), so the visual mode does not change the pushed
levels. -/
def stepHist (ps : List (ℕ × ProcHist)) (r : Rates) (now : ℚ) : List (ℕ × ProcHist) :=
  let h := (lookupHist ps r.PID).getD ⟨newRing historyWidth, newRing historyWidth, 1, now⟩
  let m := updateMax h.Max r.Total
  let h2 : ProcHist :=
    ⟨h.Read.push ⟨scale r.Read m, colorBand (r.Read / m)⟩,
     h.Write.push ⟨scale r.Write m, colorBand (r.Write / m)⟩, m, now⟩
  updateAssoc ps r.PID h2

/-- Embeds the per-cycle eviction pass of Go main (part_001 lines
642-647): delete every history entry with now - LastSeen > 30 seconds. -/
def evictStale (ps : List (ℕ × ProcHist)) (now : ℚ) : List (ℕ × ProcHist) :=
  ps.filter fun p => !decide (30 < now - p.2.LastSeen)

/-- One tick's worth of input to the loop body: the fresh snapshot, the
elapsed seconds since the previous snapshot, the wall-clock time now, and
the configured top count. -/
structure CycleIn where
  curr : List ProcIOInfo
  elapsed : ℚ
  now : ℚ
  top : ℕ
deriving DecidableEq

/-- Embeds the elapsed clamp of Go main (part_001 lines 561-563): a
non-positive elapsed time becomes 0.001 seconds. -/
def clampElapsed (e : ℚ) : ℚ := if e ≤ 0 then 1 / 1000 else e

/-- The ranked rates actually displayed in one cycle: the sorted rates,
truncated by the loop bound i < top && i < len(rates) (part_001 line
596). -/
def shownRates (prev : List ProcIOInfo) (c : CycleIn) : List Rates :=
  (sortRates (computeRates prev c.curr (clampElapsed c.elapsed))).take c.top

/-- The mutable state of the Go main loop that the sampling path touches:
the previous snapshot and the procs history map. -/
structure LoopState where
  prevSnap : List ProcIOInfo
  procs : List (ℕ × ProcHist)
deriving DecidableEq

/-- Embeds one timer-tick iteration of Go main (part_001 lines 550-649):
compute and sort the rates, update the history of each displayed rate,
evict stale entries, and make the current snapshot the next baseline. -/
def runCycle (s : LoopState) (c : CycleIn) : LoopState :=
  let shown := shownRates s.prevSnap c
  let ps := shown.foldl (fun acc r => stepHist acc r c.now) s.procs
  ⟨c.curr, evictStale ps c.now⟩

/-- Iterate runCycle over a list of tick inputs. -/
def runTrace (s : LoopState) (cs : List CycleIn) : LoopState := cs.foldl runCycle s

/-- The state right before the first tick (part_001 lines 545-546): the
startup snapshot as baseline and an empty history map. -/
def initState (snap : List ProcIOInfo) : LoopState := ⟨snap, []⟩

/-- Embeds the Go table allowedIntervals (part_001 lines 172-186), as
nanosecond counts (time.Duration values). -/
def allowedIntervals : List ℕ :=
  [100000000, 200000000, 300000000, 400000000, 500000000,
   600000000, 700000000, 800000000, 900000000,
   1000000000, 2000000000, 5000000000, 10000000000]

/-- Embeds Go nextInterval (part_001 lines 188-202): find the current
interval in the table (first match) and move one step up or down; at a
boundary, or when the current value is not in the table, return it
unchanged. -/
def nextInterval (curr : ℕ) (up : Bool) : ℕ :=
  match allowedIntervals.findIdx? (fun v => v == curr) with
  | none => curr
  | some i =>
    if up then
      if i < allowedIntervals.length - 1 then allowedIntervals.getD (i + 1) curr else curr
    else
      if 0 < i then allowedIntervals.getD (i - 1) curr else curr

/-- The interval the loop starts with (part_001 line 541): 1 second, in
nanoseconds. -/
def startInterval : ℕ := 1000000000

/-- Go constants DefaultTopN = 5 and MaxTopN = 20 (part_001 lines 19-20). -/
def DefaultTopN : ℕ := 5

/-- Go constant MaxTopN = 20. -/
def MaxTopN : ℕ := 20

/-- Decimal digits of a string to a natural number, or none when the
character list is empty or contains a non-digit: the core of
strconv.Atoi. -/
def digitsToNat (cs : List Char) : Option ℕ :=
  if cs = [] ∨ ¬ cs.all Char.isDigit then none
  else some (cs.foldl (fun acc c => acc * 10 + (c.toNat - 48)) 0)

/-- Embeds strconv.Atoi on a 64-bit platform, on the string's character
list: an optional sign followed by decimal digits; empty, malformed, and
out-of-int64-range inputs yield an error (none) — Atoi returns a non-nil
error for ErrRange, and the caller only uses the value when the error is
nil. -/
def goAtoi : List Char → Option ℤ
  | [] => none
  | c :: rest =>
    let signed : ℤ × List Char :=
      if c = '-' then (-1, rest) else if c = '+' then (1, rest) else (1, c :: rest)
    match digitsToNat signed.2 with
    | none => none
    | some v =>
      let n : ℤ := signed.1 * v
      if n < -(2 ^ 63) ∨ 2 ^ 63 - 1 < n then none else some n

/-- Embeds the guarded --top assignment of Go main (part_001 lines
476-483 and 487-494): only a successfully parsed, strictly positive value
is used, clamped above to MaxTopN; anything else leaves top unchanged. -/
def applyTop (top : ℕ) (res : Option ℤ) : ℕ :=
  match res with
  | none => top
  | some n => if 0 < n then (if 20 < n then 20 else n.toNat) else top

/-- Embeds the argument-scanning loop of Go main (part_001 lines 464-496)
restricted to its effect on top: a "--top" argument consumes the next
argument as its value (when one exists), a "--top=..." argument carries
its value inline, and every other argument leaves top unchanged.
strings.HasPrefix(a, "--top=") and strings.TrimPrefix(a, "--top=") are
modelled on the character list (the prefix is ASCII, so byte and
character prefixes coincide). -/
def parseTopLoop : List String → ℕ → ℕ
  | [], top => top
  | [a], top =>
    if a = "--top" then top
    else if a.toList.take 6 = "--top=".toList then applyTop top (goAtoi (a.toList.drop 6))
    else top
  | a :: b :: rest, top =>
    if a = "--top" then parseTopLoop rest (applyTop top (goAtoi b.toList))
    else if a.toList.take 6 = "--top=".toList then
      parseTopLoop (b :: rest) (applyTop top (goAtoi (a.toList.drop 6)))
    else parseTopLoop (b :: rest) top

/-- The effective top count for a command line: the scanning loop started
from DefaultTopN = 5. -/
def parseTop (args : List String) : ℕ := parseTopLoop args DefaultTopN

/-- The displayed quantizer level: the composition of Go scale with the
glyph index computation of Ring.renderBraille — exactly what a pushed
cell's glyph index is. -/
def displayedLevel (v m : ℚ) : ℤ := glyphIdx (scale v m)

/-- Modelled from the spec wording of the quantizer law: level =
round(value / max * (L-1)) clamped to [0, L-1] with L = 9, and 0 whenever
max ≤ 0.  Used only for comparison against displayedLevel. -/
def specLevel (v m : ℚ) : ℤ :=
  if m ≤ 0 then 0 else min 8 (max 0 (round (v / m * 8)))

/-- The last n elements of a list: the oldest-to-newest content of a
capacity-n ring after a push sequence. -/
def lastN (n : ℕ) (l : List Cell) : List Cell := l.drop (l.length - n)

/-- Well-formedness of a ring: the head index is inside the buffer.  Holds
for every ring the program builds (newRing starts at head 0 and push
advances modulo the capacity). -/
def Ring.WF (r : Ring) : Prop := r.head < r.buf.length

/-- Invariant of the history map: every entry's adaptive max is strictly
positive. -/
def MaxPos (ps : List (ℕ × ProcHist)) : Prop := ∀ p ∈ ps, 0 < p.2.Max

/-- Concrete startup snapshot: one process, counters at zero. -/
def snapA : List ProcIOInfo := [⟨100, "p", 0, 0⟩]

/-- Concrete tick 1: cumulative read 10, elapsed 1 s, time 1 s. -/
def cycA1 : CycleIn := ⟨[⟨100, "p", 10, 0⟩], 1, 1, 5⟩

/-- Concrete tick 2: cumulative read 15 (delta 5), time 2 s. -/
def cycA2 : CycleIn := ⟨[⟨100, "p", 15, 0⟩], 1, 2, 5⟩

/-- Concrete tick 3: cumulative read 35 (delta 20), time 3 s. -/
def cycA3 : CycleIn := ⟨[⟨100, "p", 35, 0⟩], 1, 3, 5⟩

/-- Old snapshot entry of the spec's counter-reset example: read 5000. -/
def oldReset : ProcIOInfo := ⟨100, "p", 5000, 0⟩

/-- New snapshot entry of the spec's counter-reset example: read 200
(counter decreased). -/
def newReset : ProcIOInfo := ⟨100, "p", 200, 0⟩

/-- The (single) history entry produced by running one concrete tick, as
a key/value pair; getD 0 extracts it. -/
def c4probe : ℕ × ProcHist :=
  (runTrace (initState snapA) [cycA1]).procs.getD 0 (0, ⟨newRing 0, newRing 0, 0, 0⟩)

/-- Same concrete history entry, fetched independently for the eviction
provenance claim. -/
def c7probe : ℕ × ProcHist :=
  (runTrace (initState snapA) [cycA1]).procs.getD 0 (0, ⟨newRing 0, newRing 0, 0, 0⟩)

/-- A concrete history entry for exercising the eviction boundary. -/
def histFresh : ProcHist := ⟨newRing 0, newRing 0, 1, 0⟩

/-! Helper lemmas. -/

lemma applyTop_bounds (top : ℕ) (res : Option ℤ) (h1 : 1 ≤ top) (h2 : top ≤ 20) :
    1 ≤ applyTop top res ∧ applyTop top res ≤ 20 := by
  cases res with
  | none => exact ⟨h1, h2⟩
  | some n =>
    simp only [applyTop]
    split_ifs with hpos hgt
    · omega
    · omega
    · exact ⟨h1, h2⟩

lemma parseTopLoop_bounds : ∀ (args : List String) (top : ℕ),
    1 ≤ top ∧ top ≤ 20 → 1 ≤ parseTopLoop args top ∧ parseTopLoop args top ≤ 20 := by
  intro args top
  induction args, top using parseTopLoop.induct with
  | case1 top => exact fun h => h
  | case2 top => intro h; simpa [parseTopLoop] using h
  | case3 a top hne hpre =>
    intro h
    simp only [parseTopLoop]
    rw [if_neg hne, if_pos hpre]
    exact applyTop_bounds _ _ h.1 h.2
  | case4 a top hne hnpre =>
    intro h
    simp only [parseTopLoop]
    rw [if_neg hne, if_neg hnpre]
    exact h
  | case5 b rest top ih =>
    intro h
    simp only [parseTopLoop, if_pos rfl]
    exact ih (applyTop_bounds _ _ h.1 h.2)
  | case6 a b rest top hne hpre ih =>
    intro h
    simp only [parseTopLoop]
    rw [if_neg hne, if_pos hpre]
    exact ih (applyTop_bounds _ _ h.1 h.2)
  | case7 a b rest top hne hnpre ih =>
    intro h
    simp only [parseTopLoop]
    rw [if_neg hne, if_neg hnpre]
    exact ih h

lemma ring_getD_set_self (l : List Cell) (i : ℕ) (x d : Cell) (h : i < l.length) :
    (l.set i x).getD i d = x := by
  rw [List.getD_eq_getElem _ _ (by simpa using h)]
  simp [List.getElem_set, h]

lemma ring_getD_set_ne (l : List Cell) (i j : ℕ) (x d : Cell) (h : i ≠ j) :
    (l.set i x).getD j d = l.getD j d := by
  by_cases hj : j < l.length
  · rw [List.getD_eq_getElem _ _ (by simpa using hj), List.getD_eq_getElem _ _ hj]
    simp [List.getElem_set, h]
  · rw [List.getD_eq_default _ _ (by simpa using (not_lt.mp hj)),
      List.getD_eq_default _ _ (not_lt.mp hj)]

lemma ring_getD_replicate (n i : ℕ) :
    (List.replicate n cellZero).getD i cellZero = cellZero := by
  induction n generalizing i with
  | zero => simp [List.getD]
  | succ n ih =>
    cases i with
    | zero => simp [List.replicate]
    | succ i => simp only [List.replicate, List.getD_cons_succ]; exact ih i

lemma renderCells_push (r : Ring) (c : Cell) (hwf : r.WF) :
    (r.push c).renderCells = r.renderCells.drop 1 ++ [c] := by
  obtain ⟨buf, head⟩ := r
  simp only [Ring.WF] at hwf
  obtain ⟨m, hm⟩ : ∃ m, buf.length = m + 1 := ⟨buf.length - 1, by omega⟩
  simp only [Ring.push, Ring.renderCells, List.length_set, hm]
  have hmod : ∀ i : ℕ, ((head + 1) % (m + 1) + i) % (m + 1) = (head + 1 + i) % (m + 1) := by
    intro i
    rw [Nat.mod_add_mod]
  nth_rewrite 2 [List.range_succ_eq_map]
  rw [List.range_succ]
  simp only [List.map_append, List.map_cons, List.map_map, List.map_singleton,
    List.drop_succ_cons, List.drop_zero]
  congr 1
  · refine List.map_congr_left fun i hi => ?_
    rw [List.mem_range] at hi
    have hne : head ≠ (head + 1 + i) % (m + 1) := by
      intro heq
      have h1 : (head + (1 + i)) % (m + 1) = (head + 0) % (m + 1) := by
        calc (head + (1 + i)) % (m + 1) = (head + 1 + i) % (m + 1) := by
              rw [Nat.add_assoc]
          _ = head := heq.symm
          _ = (head + 0) % (m + 1) := by
              rw [Nat.add_zero, Nat.mod_eq_of_lt (by omega : head < m + 1)]
      have h2 : (1 + i) ≡ 0 [MOD m + 1] := Nat.ModEq.add_left_cancel' head h1
      have h3 : (m + 1) ∣ (1 + i) := Nat.modEq_zero_iff_dvd.mp h2
      have h4 := Nat.le_of_dvd (by omega) h3
      omega
    rw [hmod, ring_getD_set_ne _ _ _ _ _ hne]
    simp only [Function.comp_apply]
    have harg : head + 1 + i = head + i.succ := by omega
    rw [harg]
  · have hlast : ((head + 1) % (m + 1) + m) % (m + 1) = head := by
      rw [hmod]
      have h5 : head + 1 + m = head + (m + 1) := by omega
      rw [h5, Nat.add_mod_right, Nat.mod_eq_of_lt (by omega : head < m + 1)]
    rw [hlast, ring_getD_set_self _ _ _ _ (by omega)]
    simp

lemma wf_push (r : Ring) (c : Cell) (hwf : r.WF) : (r.push c).WF := by
  simp only [Ring.WF, Ring.push, List.length_set] at hwf ⊢
  exact Nat.mod_lt _ (by omega)

lemma wf_pushAll (r : Ring) (cs : List Cell) (hwf : r.WF) : (r.pushAll cs).WF := by
  induction cs generalizing r with
  | nil => exact hwf
  | cons c cs ih => exact ih _ (wf_push r c hwf)

lemma pushAll_append (r : Ring) (cs : List Cell) (c : Cell) :
    r.pushAll (cs ++ [c]) = (r.pushAll cs).push c := by
  simp [Ring.pushAll, List.foldl_append]

lemma renderCells_newRing (n : ℕ) : (newRing n).renderCells = List.replicate n cellZero := by
  simp only [newRing, Ring.renderCells, List.length_replicate]
  refine List.ext_getElem (by simp) fun i h1 h2 => ?_
  simp [ring_getD_replicate]

lemma lastN_append_singleton (n : ℕ) (l : List Cell) (c : Cell) (hn : 0 < n)
    (h : n ≤ l.length) : lastN n (l ++ [c]) = (lastN n l).drop 1 ++ [c] := by
  simp only [lastN, List.length_append, List.length_singleton]
  rw [List.drop_append_of_le_length (by omega), List.drop_drop]
  congr 2
  omega

lemma render_pushAll (n : ℕ) (hn : 0 < n) (cs : List Cell) :
    ((newRing n).pushAll cs).renderCells = lastN n (List.replicate n cellZero ++ cs) := by
  induction cs using List.reverseRecOn with
  | nil =>
    simp only [Ring.pushAll, List.foldl_nil, List.append_nil, renderCells_newRing, lastN,
      List.length_replicate]
    rw [Nat.sub_self, List.drop_zero]
  | append_singleton cs c ih =>
    rw [pushAll_append, renderCells_push _ _ (wf_pushAll _ _ (by simp [newRing, Ring.WF, hn])),
      ih, ← List.append_assoc]
    rw [lastN_append_singleton n _ c hn (by simp)]

lemma updateMax_pos (m t : ℚ) (h : 0 < m) : 0 < updateMax m t := by
  unfold updateMax
  split_ifs with hlt
  · linarith
  · linarith

lemma mem_updateAssoc (ps : List (ℕ × ProcHist)) (pid : ℕ) (h : ProcHist) (k : ℕ)
    (v : ProcHist) (hm : (k, v) ∈ updateAssoc ps pid h) : (k = pid ∧ v = h) ∨ (k, v) ∈ ps := by
  unfold updateAssoc at hm
  split at hm
  · rw [List.mem_map] at hm
    obtain ⟨p, hp, heq⟩ := hm
    by_cases hpe : p.1 == pid
    · rw [if_pos hpe] at heq
      rw [Prod.mk.injEq] at heq
      exact Or.inl ⟨heq.1.symm, heq.2.symm⟩
    · rw [if_neg hpe] at heq
      exact Or.inr (heq ▸ hp)
  · rw [List.mem_append, List.mem_singleton] at hm
    rcases hm with hold | hnew
    · exact Or.inr hold
    · rw [Prod.mk.injEq] at hnew
      exact Or.inl hnew

lemma lookupHist_mem (ps : List (ℕ × ProcHist)) (pid : ℕ) (h0 : ProcHist)
    (hl : lookupHist ps pid = some h0) : ∃ p ∈ ps, p.2 = h0 := by
  unfold lookupHist at hl
  rw [Option.map_eq_some'] at hl
  obtain ⟨p0, hfind, hp0⟩ := hl
  exact ⟨p0, List.mem_of_find?_eq_some hfind, hp0⟩

lemma stepHist_maxPos (ps : List (ℕ × ProcHist)) (r : Rates) (now : ℚ) (hinv : MaxPos ps) :
    MaxPos (stepHist ps r now) := by
  intro p hp
  obtain ⟨k, v⟩ := p
  simp only [stepHist] at hp
  rcases mem_updateAssoc _ _ _ _ _ hp with ⟨hk, hv⟩ | hold
  · rw [hv]
    refine updateMax_pos _ _ ?_
    rcases hl : lookupHist ps r.PID with _ | h0
    · simp only [hl, Option.getD_none]
      norm_num
    · simp only [hl, Option.getD_some]
      obtain ⟨p0, hp0, hph⟩ := lookupHist_mem ps r.PID h0 hl
      exact hph ▸ hinv p0 hp0
  · exact hinv _ hold

lemma foldl_stepHist_maxPos (rs : List Rates) (now : ℚ) :
    ∀ ps : List (ℕ × ProcHist), MaxPos ps →
      MaxPos (rs.foldl (fun acc r => stepHist acc r now) ps) := by
  induction rs with
  | nil => exact fun ps h => h
  | cons r rs ih => exact fun ps h => ih _ (stepHist_maxPos ps r now h)

lemma evictStale_maxPos (ps : List (ℕ × ProcHist)) (now : ℚ) (hinv : MaxPos ps) :
    MaxPos (evictStale ps now) :=
  fun p hp => hinv p (List.mem_of_mem_filter hp)

lemma runTrace_maxPos (cs : List CycleIn) :
    ∀ s : LoopState, MaxPos s.procs → MaxPos (runTrace s cs).procs := by
  induction cs with
  | nil => exact fun s h => h
  | cons c cs ih =>
    intro s h
    exact ih (runCycle s c) (evictStale_maxPos _ _ (foldl_stepHist_maxPos _ _ _ h))

lemma stepHist_lastSeen (ps : List (ℕ × ProcHist)) (r : Rates) (now : ℚ) (k : ℕ)
    (v : ProcHist) (hm : (k, v) ∈ stepHist ps r now) :
    (k, v) ∈ ps ∨ (k = r.PID ∧ v.LastSeen = now) := by
  simp only [stepHist] at hm
  rcases mem_updateAssoc _ _ _ _ _ hm with ⟨hk, hv⟩ | hold
  · exact Or.inr ⟨hk, by rw [hv]⟩
  · exact Or.inl hold

lemma foldl_stepHist_lastSeen (now : ℚ) : ∀ (rs : List Rates) (ps : List (ℕ × ProcHist))
    (k : ℕ) (v : ProcHist), (k, v) ∈ rs.foldl (fun acc r => stepHist acc r now) ps →
    (k, v) ∈ ps ∨ (v.LastSeen = now ∧ k ∈ rs.map (·.PID)) := by
  intro rs
  induction rs with
  | nil => exact fun ps k v h => Or.inl h
  | cons r rs ih =>
    intro ps k v hm
    rcases ih (stepHist ps r now) k v hm with hin | ⟨hls, hpid⟩
    · rcases stepHist_lastSeen ps r now k v hin with hold | ⟨hk, hls⟩
      · exact Or.inl hold
      · exact Or.inr ⟨hls, by rw [List.map_cons, hk]; exact List.mem_cons_self _ _⟩
    · exact Or.inr ⟨hls, by rw [List.map_cons]; exact List.mem_cons_of_mem _ hpid⟩

lemma mem_evictStale (ps : List (ℕ × ProcHist)) (now : ℚ) (p : ℕ × ProcHist) :
    p ∈ evictStale ps now ↔ p ∈ ps ∧ now ≤ p.2.LastSeen + 30 := by
  simp only [evictStale, List.mem_filter, Bool.not_eq_true', decide_eq_false_iff_not, not_lt,
    tsub_le_iff_right]
  constructor
  · exact fun ⟨h1, h2⟩ => ⟨h1, by linarith⟩
  · exact fun ⟨h1, h2⟩ => ⟨h1, by linarith⟩

lemma runTrace_append_singleton (s : LoopState) (cs : List CycleIn) (c : CycleIn) :
    runTrace s (cs ++ [c]) = runCycle (runTrace s cs) c := by
  simp [runTrace, List.foldl_append]

lemma nextInterval_mem : ∀ curr ∈ allowedIntervals, ∀ up : Bool,
    nextInterval curr up ∈ allowedIntervals := by
  decide

lemma foldl_nextInterval_mem : ∀ (evs : List Bool) (curr : ℕ), curr ∈ allowedIntervals →
    evs.foldl nextInterval curr ∈ allowedIntervals := by
  intro evs
  induction evs with
  | nil => exact fun curr h => h
  | cons e evs ih => exact fun curr h => ih _ (nextInterval_mem curr h e)

/-! Claim theorems. -/

/-- C1, counterexample.  The spec's counter-reset example old read 5000,
new read 200, elapsed 1 s: the code emits read rate 2^64 - 4800 (uint64
wraparound), not the zero delta the claim states. -/
theorem c1_counter_reset_cx :
    (computeRates [oldReset] [newReset] 1).map (·.Read) = [((2 : ℚ) ^ 64 - 4800)]
    ∧ (computeRates [oldReset] [newReset] 1).map (·.Read) ≠ [0] := by
  constructor <;>
    norm_num [computeRates, pairRate, oldReset, newReset, usub64, List.find?, List.filterMap]

/-- C1, amended.  For an entity present in both snapshots whose cumulative
read counter decreased (new < old), the Differencer emits the wrapped
delta 2^64 - (old - new) divided by elapsed — a huge positive spike, not
zero — because the uint64 subtraction wraps modulo 2^64; the new
cumulative value does become the baseline for the next cycle. -/
theorem c1_counter_reset_amended :
    (∀ (old now : ProcIOInfo) (e : ℚ), now.Read < old.Read → old.Read < 2 ^ 64 →
      (pairRate old now e).map (·.Read) = some (((2 ^ 64 - (old.Read - now.Read) : ℕ) : ℚ) / e))
    ∧ (∀ (s : LoopState) (c : CycleIn), (runCycle s c).prevSnap = c.curr) := by
  constructor
  · intro old now e hlt hb
    have hu : usub64 now.Read old.Read = 2 ^ 64 - (old.Read - now.Read) := by
      unfold usub64; omega
    have hpos : 0 < usub64 now.Read old.Read := by omega
    have hne : ¬((usub64 now.Read old.Read : ℚ) + (usub64 now.Write old.Write : ℚ) = 0) := by
      have : (0 : ℚ) < (usub64 now.Read old.Read : ℚ) + (usub64 now.Write old.Write : ℚ) :=
        add_pos_of_pos_of_nonneg (by exact_mod_cast hpos) (Nat.cast_nonneg _)
      exact this.ne'
    rw [hu] at hne
    simp only [pairRate, hu, if_neg hne, Option.map_some']
  · intro s c
    rfl

/-- C1, witness for the amended theorem: the spec's reset example, via
pairRate at elapsed 1. -/
theorem c1_counter_reset_witness :
    (pairRate oldReset newReset 1).map (·.Read)
      = some (((2 ^ 64 - (oldReset.Read - newReset.Read) : ℕ) : ℚ) / 1) :=
  c1_counter_reset_amended.1 oldReset newReset 1 (by norm_num [oldReset, newReset])
    (by norm_num [oldReset])

/-- C2, counterexample.  The comparator of the Go sort compares only
totals, so with input order id 3, id 2 (both total 9), id 1 (total 5) the
ranked order is [3, 2, 1], not the claimed [2, 3, 1]; the input order of
the rates list comes from nondeterministic Go map iteration, so this
input order is realizable. -/
theorem c2_ranker_cx :
    (sortRates [⟨3, "", 0, 0, 9⟩, ⟨2, "", 0, 0, 9⟩, ⟨1, "", 0, 0, 5⟩]).map (·.PID) = [3, 2, 1]
    ∧ ([3, 2, 1] : List ℕ) ≠ [2, 3, 1] := by
  constructor <;> decide

/-- C2, amended.  The Rate Ranker orders rates by total_rate descending
and permutes its input; ties are not broken by entity id — equal totals
keep their relative input order — so the example input ranks as
[2, 3, 1] exactly when id 2 precedes id 3 in the input order. -/
theorem c2_ranker_amended :
    (∀ l : List Rates, (sortRates l).Perm l ∧ (sortRates l).Sorted rateLE)
    ∧ (sortRates [⟨1, "", 0, 0, 5⟩, ⟨2, "", 0, 0, 9⟩, ⟨3, "", 0, 0, 9⟩]).map (·.PID)
        = [2, 3, 1] :=
  ⟨fun l => ⟨List.perm_insertionSort rateLE l, List.sorted_insertionSort rateLE l⟩, by decide⟩

/-- C3.  The adaptive max rises instantly to a total that exceeds it and
otherwise decays by the factor 0.95; through the full per-cycle pipeline,
starting from a fresh entry (max 1), totals 10, 5, 20 on three
consecutive cycles leave maxes 10, 9.5, 20. -/
theorem c3_adaptive_max :
    (∀ m t : ℚ, (m < t → updateMax m t = t) ∧ (t ≤ m → updateMax m t = m * (19 / 20)))
    ∧ (lookupHist (runTrace (initState snapA) [cycA1]).procs 100).map (·.Max) = some 10
    ∧ (lookupHist (runTrace (initState snapA) [cycA1, cycA2]).procs 100).map (·.Max)
        = some (19 / 2)
    ∧ (lookupHist (runTrace (initState snapA) [cycA1, cycA2, cycA3]).procs 100).map (·.Max)
        = some 20 := by
  refine ⟨fun m t => ⟨fun h => if_pos h, fun h => if_neg (not_lt.mpr h)⟩, ?_, ?_, ?_⟩ <;>
    norm_num [runTrace, runCycle, initState, snapA, cycA1, cycA2, cycA3, shownRates,
      computeRates, pairRate, usub64, clampElapsed, sortRates, stepHist, lookupHist,
      updateAssoc, updateMax, evictStale, newRing, Ring.push, scale, colorBand, historyWidth,
      List.insertionSort, List.orderedInsert, List.find?, List.filterMap]

/-- C3, witness: rise at 1 < 10 and decay at 5 ≤ 10. -/
theorem c3_adaptive_max_witness :
    updateMax 1 10 = 10 ∧ updateMax 10 5 = 10 * (19 / 20) :=
  ⟨(c3_adaptive_max.1 1 10).1 (by norm_num), (c3_adaptive_max.1 10 5).2 (by norm_num)⟩

/-- C4.  In every state reachable by running the loop from startup
(entries created with max 1, then updated each cycle), every history
entry's adaptive max is strictly positive. -/
theorem c4_max_pos : ∀ (snap : List ProcIOInfo) (cs : List CycleIn) (pid : ℕ) (h : ProcHist),
    (pid, h) ∈ (runTrace (initState snap) cs).procs → 0 < h.Max := by
  intro snap cs pid h hm
  exact runTrace_maxPos cs (initState snap)
    (fun p hp => absurd hp (List.not_mem_nil p)) (pid, h) hm

/-- C4, witness: the history entry produced by one concrete tick. -/
theorem c4_max_pos_witness : 0 < c4probe.2.Max :=
  c4_max_pos snapA [cycA1] c4probe.1 c4probe.2 (by
    norm_num [c4probe, runTrace, runCycle, initState, snapA, cycA1, shownRates, computeRates,
      pairRate, usub64, clampElapsed, sortRates, stepHist, lookupHist, updateAssoc, updateMax,
      evictStale, newRing, Ring.push, scale, colorBand, historyWidth, List.insertionSort,
      List.orderedInsert, List.find?, List.filterMap])

/-- C5.  For every snapshot pair and every positive elapsed value, every
rate the Differencer emits has non-negative read, write and total
components. -/
theorem c5_rates_nonneg : ∀ (prev curr : List ProcIOInfo) (e : ℚ), 0 < e →
    ∀ r ∈ computeRates prev curr e, 0 ≤ r.Read ∧ 0 ≤ r.Write ∧ 0 ≤ r.Total := by
  intro prev curr e he r hr
  rw [computeRates, List.mem_filterMap] at hr
  obtain ⟨now, _, hmatch⟩ := hr
  rcases hfind : prev.find? (fun old => old.PID == now.PID) with _ | old <;> rw [hfind] at hmatch
  · simp at hmatch
  · simp only [pairRate] at hmatch
    split at hmatch
    · simp at hmatch
    · rw [Option.some_inj] at hmatch
      have h1 : (0 : ℚ) ≤ (usub64 now.Read old.Read : ℚ) / e := div_nonneg (by positivity) he.le
      have h2 : (0 : ℚ) ≤ (usub64 now.Write old.Write : ℚ) / e := div_nonneg (by positivity) he.le
      rw [← hmatch]
      exact ⟨h1, h2, add_nonneg h1 h2⟩

/-- C5, witness: the concrete first tick emits the rate 10/0/10, and the
theorem applies to it at elapsed 1. -/
theorem c5_rates_nonneg_witness :
    0 ≤ (⟨100, "p", 10, 0, 10⟩ : Rates).Read ∧ 0 ≤ (⟨100, "p", 10, 0, 10⟩ : Rates).Write
    ∧ 0 ≤ (⟨100, "p", 10, 0, 10⟩ : Rates).Total :=
  c5_rates_nonneg snapA [⟨100, "p", 10, 0⟩] 1 (by norm_num) ⟨100, "p", 10, 0, 10⟩
    (by norm_num [computeRates, pairRate, snapA, usub64, List.find?, List.filterMap])

/-- C6.  For every capacity n > 0 and every push sequence onto a fresh
ring, the rendered cell sequence is exactly the last n of (n zero cells
followed by the pushed cells) — the stored cells in oldest-to-newest
order; rendering is a pure function of the ring (Go value receiver, no
writes), so it is repeatable by construction.  In particular a ring of
capacity 3 pushed with levels 1, 2, 3, 4 renders levels [2, 3, 4]. -/
theorem c6_ring_render :
    (∀ (n : ℕ), 0 < n → ∀ (cs : List Cell),
      ((newRing n).pushAll cs).renderCells = lastN n (List.replicate n cellZero ++ cs))
    ∧ (((newRing 3).pushAll [⟨1, ""⟩, ⟨2, ""⟩, ⟨3, ""⟩, ⟨4, ""⟩]).renderCells).map (·.Level)
        = [2, 3, 4] :=
  ⟨fun n hn cs => render_pushAll n hn cs, by decide⟩

/-- C6, witness: the capacity-3 ring with pushes 1, 2, 3, 4. -/
theorem c6_ring_render_witness :
    ((newRing 3).pushAll [⟨1, ""⟩, ⟨2, ""⟩, ⟨3, ""⟩, ⟨4, ""⟩]).renderCells
      = lastN 3 (List.replicate 3 cellZero ++ [⟨1, ""⟩, ⟨2, ""⟩, ⟨3, ""⟩, ⟨4, ""⟩]) :=
  c6_ring_render.1 3 (by norm_num) [⟨1, ""⟩, ⟨2, ""⟩, ⟨3, ""⟩, ⟨4, ""⟩]

/-- C7.  The eviction pass keeps an entry exactly when the current time
does not exceed its last-seen time plus the 30 second window (so it is
removed exactly when the time exceeds that boundary and present strictly
before it); and every entry present after running the loop from startup
stems from a cycle at which its pid was among the displayed (ranked
top-K) rates — its last-seen time is that cycle's time — with every
later cycle's time within 30 seconds of it. -/
theorem c7_eviction :
    (∀ (ps : List (ℕ × ProcHist)) (now : ℚ) (pid : ℕ) (h : ProcHist),
      (pid, h) ∈ evictStale ps now ↔ ((pid, h) ∈ ps ∧ now ≤ h.LastSeen + 30))
    ∧ (∀ (snap : List ProcIOInfo) (cs : List CycleIn) (pid : ℕ) (h : ProcHist),
      (pid, h) ∈ (runTrace (initState snap) cs).procs →
      ∃ pre c post, cs = pre ++ c :: post ∧ h.LastSeen = c.now
        ∧ pid ∈ (shownRates (runTrace (initState snap) pre).prevSnap c).map (·.PID)
        ∧ ∀ c2 ∈ post, c2.now ≤ c.now + 30) := by
  constructor
  · exact fun ps now pid h => mem_evictStale ps now (pid, h)
  · intro snap cs
    induction cs using List.reverseRecOn with
    | nil =>
      intro pid h hm
      simp [runTrace, initState] at hm
    | append_singleton cs c ih =>
      intro pid h hm
      rw [runTrace_append_singleton] at hm
      simp only [runCycle] at hm
      rw [mem_evictStale] at hm
      obtain ⟨hin, htime⟩ := hm
      rcases foldl_stepHist_lastSeen c.now _ _ pid h hin with hold | ⟨hls, hpid⟩
      · obtain ⟨pre, c1, post, hcs, hlast, hshown, hpost⟩ := ih pid h hold
        refine ⟨pre, c1, post ++ [c], by rw [hcs, List.append_assoc, List.cons_append], hlast,
          hshown, ?_⟩
        intro c2 hc2
        rw [List.mem_append, List.mem_singleton] at hc2
        rcases hc2 with hmem | rfl
        · exact hpost c2 hmem
        · rw [← hlast]; linarith
      · exact ⟨cs, c, [], rfl, hls, hpid, fun c2 hc2 => absurd hc2 (List.not_mem_nil c2)⟩

/-- C7, witness: a fresh entry survives an eviction pass at time 10, and
the entry produced by one concrete tick is traced to that tick. -/
theorem c7_eviction_witness :
    (100, histFresh) ∈ evictStale [(100, histFresh)] 10
    ∧ ∃ pre c post, ([cycA1] : List CycleIn) = pre ++ c :: post ∧ c7probe.2.LastSeen = c.now
        ∧ c7probe.1 ∈ (shownRates (runTrace (initState snapA) pre).prevSnap c).map (·.PID)
        ∧ ∀ c2 ∈ post, c2.now ≤ c.now + 30 :=
  ⟨(c7_eviction.1 [(100, histFresh)] 10 100 histFresh).mpr
      ⟨List.mem_singleton_self _, by norm_num [histFresh]⟩,
   c7_eviction.2 snapA [cycA1] c7probe.1 c7probe.2 (by
    norm_num [c7probe, runTrace, runCycle, initState, snapA, cycA1, shownRates, computeRates,
      pairRate, usub64, clampElapsed, sortRates, stepHist, lookupHist, updateAssoc, updateMax,
      evictStale, newRing, Ring.push, scale, colorBand, historyWidth, List.insertionSort,
      List.orderedInsert, List.find?, List.filterMap])⟩

/-- C8.  Starting from the initial 1 s interval, any sequence of
increase/decrease events keeps the interval inside the allowed table; one
event moves exactly one step through the table, and at either end the
off-table step is a no-op (min clamps the top step, truncated subtraction
the bottom step). -/
theorem c8_interval_stepping :
    (∀ evs : List Bool, evs.foldl nextInterval startInterval ∈ allowedIntervals)
    ∧ (∀ i : Fin 13,
        nextInterval (allowedIntervals.getD i 0) true = allowedIntervals.getD (min (i.1 + 1) 12) 0
        ∧ nextInterval (allowedIntervals.getD i 0) false = allowedIntervals.getD (i.1 - 1) 0) := by
  constructor
  · exact fun evs => foldl_nextInterval_mem evs startInterval (by decide)
  · decide

/-- C9.  The displayed glyph level — Go scale composed with the rendering
index computation — equals the spec's law round(value / max * (L-1))
clamped to [0, L-1], and is 0 whenever max ≤ 0. -/
theorem c9_quantizer : ∀ v m : ℚ,
    displayedLevel v m = specLevel v m ∧ (m ≤ 0 → displayedLevel v m = 0) := by
  intro v m
  have key : displayedLevel v m = specLevel v m := by
    by_cases hm : m ≤ 0
    · simp only [displayedLevel, specLevel, scale, glyphIdx, truncToZero, if_pos hm]
      norm_num
    · push_neg at hm
      have hsc : scale v m = v * 8 / m := by
        simp only [scale, if_neg (not_le.mpr hm)]
      have hvm : v / m * 8 = v * 8 / m := by ring
      simp only [displayedLevel, specLevel, glyphIdx, truncToZero, hsc,
        if_neg (not_le.mpr hm), round_eq, hvm]
      set y : ℚ := v * 8 / m + 1 / 2 with hy
      by_cases hy0 : 0 ≤ y
      · rw [if_pos hy0]
        have hfl : 0 ≤ ⌊y⌋ := Int.floor_nonneg.mpr hy0
        split_ifs <;> omega
      · rw [if_neg hy0]
        push_neg at hy0
        have hc : ⌈y⌉ ≤ 0 := Int.ceil_le.mpr (by exact_mod_cast hy0.le)
        have hf : ⌊y⌋ < 0 := by
          by_contra hcon
          push_neg at hcon
          exact absurd (Int.floor_nonneg.mp hcon) (not_le.mpr hy0)
        split_ifs <;> omega
  exact ⟨key, fun hm => by rw [key, specLevel, if_pos hm]⟩

/-- C9, witness: the degenerate case at value 5, max 0. -/
theorem c9_quantizer_witness : displayedLevel 5 0 = specLevel 5 0 ∧ displayedLevel 5 0 = 0 :=
  ⟨(c9_quantizer 5 0).1, (c9_quantizer 5 0).2 (by norm_num)⟩

/-- C10.  Argument parsing always yields a top count in [1, 20]: invalid
or non-positive --top values are ignored (keeping the default 5 when no
valid value was seen) and values above 20 are clamped to 20. -/
theorem c10_top_flag :
    (∀ args : List String, 1 ≤ parseTop args ∧ parseTop args ≤ 20)
    ∧ parseTop ["--top", "abc"] = 5 ∧ parseTop ["--top", "0"] = 5
    ∧ parseTop ["--top", "-3"] = 5 ∧ parseTop ["--top", "42"] = 20
    ∧ parseTop ["--top=100"] = 20 ∧ parseTop ["--top=7"] = 7 ∧ parseTop [] = 5 := by
  refine ⟨fun args => parseTopLoop_bounds args DefaultTopN (by norm_num [DefaultTopN]),
    ?_, ?_, ?_, ?_, ?_, ?_, ?_⟩ <;> decide

end Iotop
